import Mathlib

/-!
Verification of the title/displayName synchronization engine of the
`brugh/translator` repository (SvelteKit app).  The JSON value model, the
extractor, the display-name synchronizer, the gap-filler, the translation
merge and the request batching logic are embedded as executable Lean
definitions translated from `src/routes/+page.svelte` and
`src/routes/api/translate/+server.ts`.
-/

/-- JSON value model: a recursive union of null, boolean, number, string,
array and object (ordered list of key/value pairs, as JavaScript objects
preserve insertion order).  Numbers are modelled as integers; no operation
of the core inspects numeric values. -/
inductive JsonValue where
  | null
  | bool (b : Bool)
  | num (n : Int)
  | str (s : String)
  | arr (items : List JsonValue)
  | obj (fields : List (String × JsonValue))
  deriving Repr

mutual

/-- Boolean structural equality of JSON values. -/
def JsonValue.beq : JsonValue → JsonValue → Bool
  | .null, .null => true
  | .bool a, .bool b => a == b
  | .num a, .num b => a == b
  | .str a, .str b => a == b
  | .arr as, .arr bs => JsonValue.beqList as bs
  | .obj fs, .obj gs => JsonValue.beqFields fs gs
  | _, _ => false
termination_by structural a => a

/-- Boolean equality of JSON arrays, element-wise. -/
def JsonValue.beqList : List JsonValue → List JsonValue → Bool
  | [], [] => true
  | a :: as, b :: bs => JsonValue.beq a b && JsonValue.beqList as bs
  | _, _ => false
termination_by structural a => a

/-- Boolean equality of object field lists, pairwise on keys and values. -/
def JsonValue.beqFields : List (String × JsonValue) → List (String × JsonValue) → Bool
  | [], [] => true
  | a :: as, b :: bs => (a.1 == b.1) && JsonValue.beq a.2 b.2 && JsonValue.beqFields as bs
  | _, _ => false
termination_by structural a => a

end

mutual

theorem JsonValue.beq_iff : ∀ a b : JsonValue, JsonValue.beq a b = true ↔ a = b
  | .null, b => by cases b <;> simp [JsonValue.beq]
  | .bool _, b => by cases b <;> simp [JsonValue.beq]
  | .num _, b => by cases b <;> simp [JsonValue.beq]
  | .str _, b => by cases b <;> simp [JsonValue.beq]
  | .arr as, b => by
      cases b <;> simp [JsonValue.beq, JsonValue.beqList_iff as _]
  | .obj fs, b => by
      cases b <;> simp [JsonValue.beq, JsonValue.beqFields_iff fs _]

theorem JsonValue.beqList_iff : ∀ as bs : List JsonValue, JsonValue.beqList as bs = true ↔ as = bs
  | [], bs => by cases bs <;> simp [JsonValue.beqList]
  | a :: as, bs => by
      cases bs with
      | nil => simp [JsonValue.beqList]
      | cons b bs =>
        simp [JsonValue.beqList, JsonValue.beq_iff a b, JsonValue.beqList_iff as bs]

theorem JsonValue.beqFields_iff :
    ∀ fs gs : List (String × JsonValue), JsonValue.beqFields fs gs = true ↔ fs = gs
  | [], gs => by cases gs <;> simp [JsonValue.beqFields]
  | (k, v) :: fs, gs => by
      cases gs with
      | nil => simp [JsonValue.beqFields]
      | cons g gs =>
        obtain ⟨k', v'⟩ := g
        simp [JsonValue.beqFields, JsonValue.beq_iff v v', JsonValue.beqFields_iff fs gs,
          Prod.ext_iff, and_assoc]

end

instance : DecidableEq JsonValue := fun a b =>
  decidable_of_iff (JsonValue.beq a b = true) (JsonValue.beq_iff a b)

/-- ASCII lowercasing of one character. -/
def lowerChar (c : Char) : Char :=
  if 65 ≤ c.toNat ∧ c.toNat ≤ 90 then Char.ofNat (c.toNat + 32) else c

/-- ASCII lowercasing of a key, modelling JavaScript `key.toLowerCase()`
for the ASCII key names the matcher targets (non-ASCII characters are kept
as they are; the matcher only compares against the ASCII patterns `title`
and `displayname`). -/
def lowerKey (k : String) : String := ⟨k.data.map lowerChar⟩

/-- First key/value pair of an object whose key case-insensitively equals
`target`, modelling `Object.keys(obj).find((k) => k.toLowerCase() === target)`
followed by the `obj[key]` read (keys of a JavaScript object are unique, so
the first case-insensitive match determines the value). -/
def findKeyCI (fields : List (String × α)) (target : String) : Option (String × α) :=
  fields.find? (fun kv => lowerKey kv.1 == target)

/-- Characters removed by JavaScript `String.prototype.trim` (the common
ASCII whitespace characters; the engine's full Unicode set is irrelevant to
the titles handled here). -/
def isJsSpace (c : Char) : Bool :=
  c == ' ' || c == '\t' || c == '\n' || c == '\r' || c == '\x0b' || c == '\x0c'

/-- Character-list version of trimming: drop whitespace from the front,
then from the back. -/
def trimChars (l : List Char) : List Char :=
  ((l.dropWhile isJsSpace).reverse.dropWhile isJsSpace).reverse

/-- JavaScript `s.trim()`. -/
def jsTrim (s : String) : String := ⟨trimChars s.data⟩

/-- DisplayNameEntry: `{ title, displayName }` as stored in the
`displayNames` state object. -/
structure DisplayName where
  title : String
  displayName : String
  deriving Repr, DecidableEq

/-- DisplayNameIndex: the `displayNames` state object, a mapping from title
to its entry, modelled as an insertion-ordered association list with unique
keys (JavaScript plain-object semantics). -/
abbrev DNIndex := List (String × DisplayName)

/-- Read `displayNames[t]` (own properties only). -/
def DNIndex.get? (idx : DNIndex) (t : String) : Option DisplayName :=
  (idx.find? (fun p => p.1 == t)).map (fun p => p.2)

/-- Write `displayNames[t] = e`: overwrite in place when the key exists,
append otherwise (JavaScript assignment keeps the key's original position;
keys of a JavaScript object are unique, so replacing the first binding is
exact). -/
def DNIndex.set : DNIndex → String → DisplayName → DNIndex
  | [], t, e => [(t, e)]
  | p :: rest, t, e => if p.1 == t then (t, e) :: rest else p :: DNIndex.set rest t e

/-- Generic JavaScript assignment `obj[k] = v` on an object's field list:
replace the first binding of `k` in place, append when absent. -/
def setFieldValue : List (String × JsonValue) → String → JsonValue → List (String × JsonValue)
  | [], k, v => [(k, v)]
  | kv :: rest, k, v => if kv.1 == k then (k, v) :: rest else kv :: setFieldValue rest k v

mutual

/-- Translation of `extractDisplayNames` (+page.svelte, lines 146-169):
depth-first pre-order walk storing `displayNames[title] = ⟨title, displayName⟩`
for every object node with case-insensitive `title` and `displayname` keys
whose values are both strings, then recursing into every field value. -/
def extractDisplayNames (idx : DNIndex) : JsonValue → DNIndex
  | .arr items => extractList idx items
  | .obj fields =>
    let idx' :=
      match findKeyCI fields "title", findKeyCI fields "displayname" with
      | some (_, .str t), some (_, .str d) => idx.set t ⟨t, d⟩
      | _, _ => idx
    extractFields idx' fields
  | _ => idx
termination_by structural v => v

/-- Element-wise recursion of the extractor over an array. -/
def extractList (idx : DNIndex) : List JsonValue → DNIndex
  | [] => idx
  | v :: vs => extractList (extractDisplayNames idx v) vs
termination_by structural l => l

/-- Recursion of the extractor over `Object.values(obj)` in insertion order. -/
def extractFields (idx : DNIndex) : List (String × JsonValue) → DNIndex
  | [] => idx
  | kv :: kvs => extractFields (extractDisplayNames idx kv.2) kvs
termination_by structural l => l

end

mutual

/-- Specification-side definition: the `(title, displayName)` pairs of all
qualifying object nodes (both keys present case-insensitively, both values
strings) in depth-first pre-order traversal order, per spec section 4.2. -/
def preorderTitlePairs : JsonValue → List (String × String)
  | .arr items => preorderPairsList items
  | .obj fields =>
    (match findKeyCI fields "title", findKeyCI fields "displayname" with
      | some (_, .str t), some (_, .str d) => [(t, d)]
      | _, _ => []) ++ preorderPairsFields fields
  | _ => []
termination_by structural v => v

/-- Pre-order pairs of an array, element-wise. -/
def preorderPairsList : List JsonValue → List (String × String)
  | [] => []
  | v :: vs => preorderTitlePairs v ++ preorderPairsList vs
termination_by structural l => l

/-- Pre-order pairs of an object's field values in insertion order. -/
def preorderPairsFields : List (String × JsonValue) → List (String × String)
  | [] => []
  | kv :: kvs => preorderTitlePairs kv.2 ++ preorderPairsFields kvs
termination_by structural l => l

end

/-- Folding a pre-order pair sequence into an index by repeated assignment. -/
def applyPairs (idx : DNIndex) (ps : List (String × String)) : DNIndex :=
  ps.foldl (fun i p => i.set p.1 ⟨p.1, p.2⟩) idx

theorem DNIndex.get?_set (idx : DNIndex) (t t' : String) (e : DisplayName) :
    (idx.set t e).get? t' = if t' = t then some e else idx.get? t' := by
  induction idx with
  | nil =>
    by_cases h : t' = t
    · subst h; simp [DNIndex.set, DNIndex.get?, List.find?_cons]
    · simp [DNIndex.set, DNIndex.get?, List.find?_cons, h, beq_eq_false_iff_ne, Ne.symm h]
  | cons p rest ih =>
    by_cases hp : p.1 = t
    · by_cases h : t' = t
      · subst h; simp [DNIndex.set, DNIndex.get?, List.find?_cons, hp]
      · simp [DNIndex.set, DNIndex.get?, List.find?_cons, hp, h, beq_eq_false_iff_ne,
          Ne.symm h]
    · by_cases hq : p.1 = t'
      · have h : ¬t' = t := fun h => hp (hq.trans h)
        simp [DNIndex.set, DNIndex.get?, List.find?_cons, hp, hq, h]
      · by_cases h : t' = t
        · subst h
          simpa [DNIndex.set, DNIndex.get?, List.find?_cons, hp, hq] using ih
        · simpa [DNIndex.set, DNIndex.get?, List.find?_cons, hp, hq, h] using ih

theorem applyPairs_append (idx : DNIndex) (ps qs : List (String × String)) :
    applyPairs idx (ps ++ qs) = applyPairs (applyPairs idx ps) qs :=
  List.foldl_append _ _ _ _

/-- Pair contributed by one object node itself: present exactly when both a
title key and a displayname key match case-insensitively with string values. -/
def ownPair (fields : List (String × JsonValue)) : List (String × String) :=
  match findKeyCI fields "title", findKeyCI fields "displayname" with
  | some (_, .str t), some (_, .str d) => [(t, d)]
  | _, _ => []

theorem extract_obj_step (idx : DNIndex) (fields : List (String × JsonValue)) :
    extractDisplayNames idx (.obj fields) =
      extractFields (applyPairs idx (ownPair fields)) fields := by
  rw [extractDisplayNames]
  congr 1
  unfold ownPair
  split <;> rfl

theorem preorder_obj_step (fields : List (String × JsonValue)) :
    preorderTitlePairs (.obj fields) = ownPair fields ++ preorderPairsFields fields := rfl

mutual

theorem extract_eq_applyPairs : ∀ (v : JsonValue) (idx : DNIndex),
    extractDisplayNames idx v = applyPairs idx (preorderTitlePairs v)
  | .null, _ => rfl
  | .bool _, _ => rfl
  | .num _, _ => rfl
  | .str _, _ => rfl
  | .arr items, idx => by
    rw [extractDisplayNames, preorderTitlePairs]
    exact extractList_eq_applyPairs items idx
  | .obj fields, idx => by
    rw [extract_obj_step, preorder_obj_step, applyPairs_append]
    exact extractFields_eq_applyPairs fields _

theorem extractList_eq_applyPairs : ∀ (items : List JsonValue) (idx : DNIndex),
    extractList idx items = applyPairs idx (preorderPairsList items)
  | [], _ => rfl
  | v :: vs, idx => by
    rw [extractList, preorderPairsList, applyPairs_append, extract_eq_applyPairs v idx]
    exact extractList_eq_applyPairs vs _

theorem extractFields_eq_applyPairs : ∀ (kvs : List (String × JsonValue)) (idx : DNIndex),
    extractFields idx kvs = applyPairs idx (preorderPairsFields kvs)
  | [], _ => rfl
  | kv :: kvs, idx => by
    rw [extractFields, preorderPairsFields, applyPairs_append, extract_eq_applyPairs kv.2 idx]
    exact extractFields_eq_applyPairs kvs _

end

theorem applyPairs_get? (ps : List (String × String)) (idx : DNIndex) (t : String) :
    (applyPairs idx ps).get? t =
      match (ps.filter (fun p => p.1 == t)).getLast? with
      | some p => some ⟨p.1, p.2⟩
      | none => idx.get? t := by
  induction ps generalizing idx with
  | nil => rfl
  | cons p ps ih =>
    have hcons : applyPairs idx (p :: ps) = applyPairs (idx.set p.1 ⟨p.1, p.2⟩) ps := rfl
    rw [hcons, ih]
    by_cases hp : p.1 = t
    · subst hp
      rw [List.filter_cons_of_pos (by simp)]
      cases hl : (ps.filter (fun q => q.1 == p.1)).getLast? with
      | some q =>
        have : (p :: ps.filter (fun q => q.1 == p.1)).getLast? = some q := by
          rcases List.getLast?_eq_some_iff.1 hl with ⟨ys, hys⟩
          rw [hys, ← List.cons_append, List.getLast?_concat]
        rw [this]
      | none =>
        rw [List.getLast?_eq_none_iff.1 hl, List.getLast?_singleton,
          DNIndex.get?_set]
        simp
    · rw [List.filter_cons_of_neg (by simp [hp])]
      cases hl : (ps.filter (fun q => q.1 == t)).getLast? with
      | some q => rfl
      | none => simp only [DNIndex.get?_set, if_neg (fun h : t = p.1 => hp h.symm)]

/-- C1: for every JSON tree, after the extractor runs (on the empty index, as
after a successful parse), every object node with a case-insensitively matched
title key and displayname key whose values are both strings yields an index
entry keyed by that title whose displayName is the displayName of the last
such node in depth-first pre-order traversal order (last write wins). -/
theorem C1_extractor_last_write_wins (v : JsonValue) (t d : String)
    (h : (t, d) ∈ preorderTitlePairs v) :
    ∃ p : String × String,
      ((preorderTitlePairs v).filter (fun q => q.1 == t)).getLast? = some p ∧
      p.1 = t ∧
      DNIndex.get? (extractDisplayNames [] v) t = some ⟨t, p.2⟩ := by
  have hmem : (t, d) ∈ (preorderTitlePairs v).filter (fun q => q.1 == t) :=
    List.mem_filter.2 ⟨h, by simp⟩
  have hne : (preorderTitlePairs v).filter (fun q => q.1 == t) ≠ [] :=
    fun e => by simp [e] at hmem
  cases hl : ((preorderTitlePairs v).filter (fun q => q.1 == t)).getLast? with
  | none => exact absurd (List.getLast?_eq_none_iff.1 hl) hne
  | some p =>
    have hpmem := List.mem_of_getLast?_eq_some hl
    have hp1 : p.1 = t := by simpa using (List.mem_filter.1 hpmem).2
    refine ⟨p, rfl, hp1, ?_⟩
    rw [extract_eq_applyPairs, applyPairs_get?]
    simp [hl, hp1]

theorem C1_witness :
    (("A", "x") ∈ preorderTitlePairs
      (.arr [.obj [("title", .str "A"), ("displayname", .str "x")],
             .obj [("Title", .str "A"), ("DisplayName", .str "y")]])) ∧
    ∃ p : String × String,
      ((preorderTitlePairs
        (.arr [.obj [("title", .str "A"), ("displayname", .str "x")],
               .obj [("Title", .str "A"), ("DisplayName", .str "y")]])).filter
          (fun q => q.1 == "A")).getLast? = some p ∧
      p.1 = "A" ∧
      DNIndex.get? (extractDisplayNames []
        (.arr [.obj [("title", .str "A"), ("displayname", .str "x")],
               .obj [("Title", .str "A"), ("DisplayName", .str "y")]])) "A"
        = some ⟨"A", p.2⟩ :=
  ⟨by decide,
   C1_extractor_last_write_wins
     (.arr [.obj [("title", .str "A"), ("displayname", .str "x")],
            .obj [("Title", .str "A"), ("DisplayName", .str "y")]]) "A" "x" (by decide)⟩

mutual

/-- Translation of the inner `updateJson` closure of `updateDisplayName`
(+page.svelte, lines 187-201): for every object, each field whose key
case-insensitively equals `displayname` and whose value is exactly the string
`oldValue` is overwritten with the string `newValue`; any other field value
that is an object or array is recursed into (recursing into a primitive is
the identity, so the recursion is written uniformly). -/
def updateJson (oldValue newValue : String) : JsonValue → JsonValue
  | .arr items => .arr (updateJsonList oldValue newValue items)
  | .obj fields => .obj (updateJsonFields oldValue newValue fields)
  | v => v
termination_by structural v => v

/-- Array case of `updateJson`: `obj.forEach(updateJson)`. -/
def updateJsonList (oldValue newValue : String) : List JsonValue → List JsonValue
  | [] => []
  | v :: vs => updateJson oldValue newValue v :: updateJsonList oldValue newValue vs
termination_by structural l => l

/-- Field loop of `updateJson`: `for (const key in obj)`. -/
def updateJsonFields (oldValue newValue : String) :
    List (String × JsonValue) → List (String × JsonValue)
  | [] => []
  | (k, v) :: kvs =>
    (if lowerKey k == "displayname" && (v == JsonValue.str oldValue : Bool)
     then (k, .str newValue)
     else (k, updateJson oldValue newValue v)) :: updateJsonFields oldValue newValue kvs
termination_by structural l => l

end

/-- Translation of `updateDisplayName` (+page.svelte, lines 181-206) acting on
the pair (displayNames index, parsed tree): when `title` has an entry, record
the old display name, overwrite the entry's displayName with `newValue`, and
rewrite the whole tree; otherwise the guard `if (displayNames[title])` fails
and nothing happens. -/
def updateDisplayName (idx : DNIndex) (tree : JsonValue) (title newValue : String) :
    DNIndex × JsonValue :=
  match idx.get? title with
  | some e => (idx.set title ⟨e.title, newValue⟩, updateJson e.displayName newValue tree)
  | none => (idx, tree)

mutual

/-- Specification-side combinator: apply the field-list transformation `f` to
every object node of the tree, children first (the per-node transformations
used in this development commute with the child recursion, so this matches
the source's node-first order). -/
def mapObjNodes (f : List (String × JsonValue) → List (String × JsonValue)) :
    JsonValue → JsonValue
  | .obj fields => .obj (f (mapObjNodesFields f fields))
  | .arr items => .arr (mapObjNodesList f items)
  | v => v
termination_by structural v => v

/-- Array case of `mapObjNodes`. -/
def mapObjNodesList (f : List (String × JsonValue) → List (String × JsonValue)) :
    List JsonValue → List JsonValue
  | [] => []
  | v :: vs => mapObjNodes f v :: mapObjNodesList f vs
termination_by structural l => l

/-- Field recursion of `mapObjNodes` (keys kept, values transformed). -/
def mapObjNodesFields (f : List (String × JsonValue) → List (String × JsonValue)) :
    List (String × JsonValue) → List (String × JsonValue)
  | [] => []
  | (k, v) :: kvs => (k, mapObjNodes f v) :: mapObjNodesFields f kvs
termination_by structural l => l

end

/-- Specification-side per-node rewrite for the synchronizer, following the
claim's words: every field whose key case-insensitively matches `displayname`
and whose value equals the old display-name string is overwritten with the
new value; no other field is changed. -/
def rewriteDNValue (oldValue newValue : String) (fields : List (String × JsonValue)) :
    List (String × JsonValue) :=
  fields.map (fun kv =>
    if lowerKey kv.1 == "displayname" && (kv.2 == JsonValue.str oldValue : Bool)
    then (kv.1, .str newValue) else kv)

theorem mapObjNodes_eq_str (f : List (String × JsonValue) → List (String × JsonValue))
    (v : JsonValue) (s : String) : mapObjNodes f v = .str s ↔ v = .str s := by
  cases v <;> simp [mapObjNodes]

theorem beq_str_mapObjNodes (f : List (String × JsonValue) → List (String × JsonValue))
    (v : JsonValue) (s : String) :
    (mapObjNodes f v == JsonValue.str s) = (v == JsonValue.str s) := by
  by_cases h : v = .str s
  · subst h; rfl
  · have h2 : mapObjNodes f v ≠ .str s := fun e => h ((mapObjNodes_eq_str f v s).1 e)
    simp [beq_eq_false_iff_ne, h, h2]

mutual

theorem updateJson_eq_spec (oldV newV : String) : ∀ v : JsonValue,
    updateJson oldV newV v = mapObjNodes (rewriteDNValue oldV newV) v
  | .null => rfl
  | .bool _ => rfl
  | .num _ => rfl
  | .str _ => rfl
  | .arr items => by
    rw [updateJson, mapObjNodes]
    exact congrArg JsonValue.arr (updateJsonList_eq_spec oldV newV items)
  | .obj fields => by
    rw [updateJson, mapObjNodes]
    exact congrArg JsonValue.obj (updateJsonFields_eq_spec oldV newV fields)

theorem updateJsonList_eq_spec (oldV newV : String) : ∀ items : List JsonValue,
    updateJsonList oldV newV items = mapObjNodesList (rewriteDNValue oldV newV) items
  | [] => rfl
  | v :: vs => by
    rw [updateJsonList, mapObjNodesList, updateJson_eq_spec oldV newV v,
      updateJsonList_eq_spec oldV newV vs]

theorem updateJsonFields_eq_spec (oldV newV : String) : ∀ kvs : List (String × JsonValue),
    updateJsonFields oldV newV kvs
      = rewriteDNValue oldV newV (mapObjNodesFields (rewriteDNValue oldV newV) kvs)
  | [] => rfl
  | (k, v) :: kvs => by
    rw [updateJsonFields, mapObjNodesFields]
    show _ :: _ = rewriteDNValue oldV newV (_ :: _)
    rw [rewriteDNValue, List.map_cons, ← rewriteDNValue,
      updateJsonFields_eq_spec oldV newV kvs]
    congr 1
    simp only [beq_str_mapObjNodes]
    by_cases hc : (lowerKey k == "displayname" && (v == JsonValue.str oldV : Bool)) = true
    · simp [hc]
    · simp only [Bool.not_eq_true] at hc
      simp [hc, updateJson_eq_spec oldV newV v]

end

/-- C2: when `title` is a key of the index, `updateDisplayName` records the
old value, sets the entry's displayName to `newValue` (leaving every other
index entry unchanged), and rewrites the tree exactly as the value-based
per-node rule describes: every object field whose key case-insensitively
matches `displayname` and whose value equals the old display-name string is
overwritten with `newValue` (including nodes of other titles sharing the same
display-name string), and no other field is changed. -/
theorem C2_synchronizer (idx : DNIndex) (tree : JsonValue) (title newValue : String)
    (e : DisplayName) (h : idx.get? title = some e) :
    (updateDisplayName idx tree title newValue).1.get? title = some ⟨e.title, newValue⟩ ∧
    (∀ t', t' ≠ title →
      (updateDisplayName idx tree title newValue).1.get? t' = idx.get? t') ∧
    (updateDisplayName idx tree title newValue).2
      = mapObjNodes (rewriteDNValue e.displayName newValue) tree := by
  unfold updateDisplayName
  rw [h]
  refine ⟨by simp [DNIndex.get?_set], fun t' ht' => by simp [DNIndex.get?_set, ht'], ?_⟩
  exact updateJson_eq_spec _ _ tree

theorem C2_witness :
    (DNIndex.get? [("A", ⟨"A", "X"⟩), ("B", ⟨"B", "X"⟩)] "A" = some ⟨"A", "X"⟩) ∧
    ((updateDisplayName [("A", ⟨"A", "X"⟩), ("B", ⟨"B", "X"⟩)]
        (.arr [.obj [("title", .str "A"), ("displayName", .str "X")],
               .obj [("title", .str "B"), ("displayName", .str "X")]]) "A" "Y").1.get? "A"
        = some ⟨"A", "Y"⟩ ∧
     (∀ t', t' ≠ "A" →
        (updateDisplayName [("A", ⟨"A", "X"⟩), ("B", ⟨"B", "X"⟩)]
          (.arr [.obj [("title", .str "A"), ("displayName", .str "X")],
                 .obj [("title", .str "B"), ("displayName", .str "X")]]) "A" "Y").1.get? t'
          = DNIndex.get? [("A", ⟨"A", "X"⟩), ("B", ⟨"B", "X"⟩)] t') ∧
     (updateDisplayName [("A", ⟨"A", "X"⟩), ("B", ⟨"B", "X"⟩)]
        (.arr [.obj [("title", .str "A"), ("displayName", .str "X")],
               .obj [("title", .str "B"), ("displayName", .str "X")]]) "A" "Y").2
        = mapObjNodes (rewriteDNValue "X" "Y")
            (.arr [.obj [("title", .str "A"), ("displayName", .str "X")],
                   .obj [("title", .str "B"), ("displayName", .str "X")]])) :=
  ⟨by decide,
   C2_synchronizer [("A", ⟨"A", "X"⟩), ("B", ⟨"B", "X"⟩)]
     (.arr [.obj [("title", .str "A"), ("displayName", .str "X")],
            .obj [("title", .str "B"), ("displayName", .str "X")]]) "A" "Y" ⟨"A", "X"⟩
     (by decide)⟩

/-- C7: calling `updateDisplayName` with a title that is not a key of the
index is a no-op: the guard `if (displayNames[title])` fails, so both the
index and the tree are returned completely unchanged and no error occurs. -/
theorem C7_update_absent_title_noop (idx : DNIndex) (tree : JsonValue)
    (title newValue : String) (h : idx.get? title = none) :
    updateDisplayName idx tree title newValue = (idx, tree) := by
  unfold updateDisplayName
  rw [h]

theorem C7_witness :
    (DNIndex.get? [("B", ⟨"B", "X"⟩)] "A" = none) ∧
    updateDisplayName [("B", ⟨"B", "X"⟩)]
      (.obj [("title", .str "B"), ("displayName", .str "X")]) "A" "Y"
      = ([("B", ⟨"B", "X"⟩)], .obj [("title", .str "B"), ("displayName", .str "X")]) :=
  ⟨by decide,
   C7_update_absent_title_noop [("B", ⟨"B", "X"⟩)]
     (.obj [("title", .str "B"), ("displayName", .str "X")]) "A" "Y" (by decide)⟩

theorem trimChars_eq (l : List Char) :
    trimChars l = List.rdropWhile isJsSpace (List.dropWhile isJsSpace l) := rfl

theorem rdropWhile_head? (p : α → Bool) (d : List α) (hr : List.rdropWhile p d ≠ []) :
    (List.rdropWhile p d).head? = d.head? := by
  unfold List.rdropWhile
  rw [List.head?_reverse]
  have hne : List.dropWhile p d.reverse ≠ [] := by
    intro e
    apply hr
    unfold List.rdropWhile
    rw [e]
    rfl
  obtain ⟨t, ht⟩ := List.dropWhile_suffix (l := d.reverse) p
  cases hgl : (List.dropWhile p d.reverse).getLast? with
  | none => exact absurd (List.getLast?_eq_none_iff.1 hgl) hne
  | some a =>
    have : d.reverse.getLast? = some a := by
      rw [← ht, List.getLast?_append, hgl]
      rfl
    rw [List.getLast?_reverse] at this
    rw [this]

theorem dropWhile_rdropWhile_dropWhile (p : α → Bool) (l : List α) :
    List.dropWhile p (List.rdropWhile p (List.dropWhile p l))
      = List.rdropWhile p (List.dropWhile p l) := by
  rcases hr : List.rdropWhile p (List.dropWhile p l) with _ | ⟨a, r⟩
  · rfl
  · have hne : List.rdropWhile p (List.dropWhile p l) ≠ [] := by rw [hr]; simp
    have hh := rdropWhile_head? p (List.dropWhile p l) hne
    rw [hr] at hh
    have hd : List.dropWhile p l ≠ [] := by
      intro e
      rw [e] at hh
      simp at hh
    have hhead : (List.dropWhile p l).head? = some ((List.dropWhile p l).head hd) :=
      List.head?_eq_head hd
    have ha : a = (List.dropWhile p l).head hd := by
      rw [hhead] at hh
      simpa using hh
    have hpa : p a = false := by
      have hnot := List.head_dropWhile_not p l hd
      rw [← ha] at hnot
      exact hnot
    simp [List.dropWhile_cons, hpa]

theorem trimChars_idem (l : List Char) : trimChars (trimChars l) = trimChars l := by
  rw [trimChars_eq, trimChars_eq, dropWhile_rdropWhile_dropWhile,
    List.rdropWhile_idempotent, ← trimChars_eq]

theorem jsTrim_idem (s : String) : jsTrim (jsTrim s) = jsTrim s := by
  unfold jsTrim
  exact congrArg String.mk (trimChars_idem s.data)

mutual

/-- Translation of `addMissingDisplayNames` (+page.svelte, lines 338-369, the
variant that trims): arrays are rebuilt element-wise; each object is
shallow-copied and then (a) when it has a case-insensitive title key with a
string value and no case-insensitive displayname key, a canonical
`displayName` field is appended holding the trimmed index entry for the
trimmed title when present, and otherwise the trimmed title itself, which is
then also inserted into the index; (b) otherwise, when the first
case-insensitive displayname key holds a string, that string is trimmed in
place; every field value is also processed recursively.  The `displayNames`
index is threaded as explicit state.  The source performs the node-level
field edit before the child loop; the edit writes only string leaves, which
the recursion maps identically and which contribute nothing to the index, so
it is applied here after the recursion with the same result (the index
update itself is performed before the recursion, exactly as in the source). -/
def addMissingDisplayNames (idx : DNIndex) : JsonValue → JsonValue × DNIndex
  | .arr items =>
    let r := fillList idx items
    (.arr r.1, r.2)
  | .obj fields =>
    match findKeyCI fields "title", findKeyCI fields "displayname" with
    | some (_, .str tv), none =>
      let t := jsTrim tv
      match idx.get? t with
      | some e =>
        let r := fillFields idx fields
        (.obj (r.1 ++ [("displayName", .str (jsTrim e.displayName))]), r.2)
      | none =>
        let r := fillFields (idx.set t ⟨t, t⟩) fields
        (.obj (r.1 ++ [("displayName", .str t)]), r.2)
    | _, _ =>
      match findKeyCI fields "displayname" with
      | some (dk, .str d) =>
        let r := fillFields idx fields
        (.obj (setFieldValue r.1 dk (.str (jsTrim d))), r.2)
      | _ =>
        let r := fillFields idx fields
        (.obj r.1, r.2)
  | v => (v, idx)
termination_by structural v => v

/-- Array recursion of the gap-filler: `value.map(addMissingDisplayNames)`. -/
def fillList (idx : DNIndex) : List JsonValue → List JsonValue × DNIndex
  | [] => ([], idx)
  | v :: vs =>
    let r := addMissingDisplayNames idx v
    let rs := fillList r.2 vs
    (r.1 :: rs.1, rs.2)
termination_by structural l => l

/-- Field loop of the gap-filler: `for (const key in obj) obj[key] = ...`. -/
def fillFields (idx : DNIndex) : List (String × JsonValue) → List (String × JsonValue) × DNIndex
  | [] => ([], idx)
  | kv :: kvs =>
    let r := addMissingDisplayNames idx kv.2
    let rs := fillFields r.2 kvs
    ((kv.1, r.1) :: rs.1, rs.2)
termination_by structural l => l

end

mutual

/-- Decidable invariant characterizing trees on which the gap-filler is the
identity: no object node has a string title without a displayname key, and
every first case-insensitive displayname key holding a string is trimmed. -/
def filledVal : JsonValue → Bool
  | .arr items => filledList items
  | .obj fields =>
    (match findKeyCI fields "title", findKeyCI fields "displayname" with
     | some (_, .str _), none => false
     | _, _ => true)
    && (match findKeyCI fields "displayname" with
        | some (_, .str d) => jsTrim d == d
        | _ => true)
    && filledFields fields
  | _ => true
termination_by structural v => v

/-- Array case of the gap-fill invariant. -/
def filledList : List JsonValue → Bool
  | [] => true
  | v :: vs => filledVal v && filledList vs
termination_by structural l => l

/-- Field case of the gap-fill invariant. -/
def filledFields : List (String × JsonValue) → Bool
  | [] => true
  | kv :: kvs => filledVal kv.2 && filledFields kvs
termination_by structural l => l

end

theorem keys_fillFields (kvs : List (String × JsonValue)) :
    ∀ idx : DNIndex, ((fillFields idx kvs).1).map Prod.fst = kvs.map Prod.fst := by
  induction kvs with
  | nil => intro idx; rfl
  | cons kv kvs ih =>
    intro idx
    rw [fillFields]
    simpa using ih _

/-- Shape relation between an input value and its gap-filled output: objects
stay objects, arrays stay arrays, primitives are returned unchanged. -/
def shapeKeeps : JsonValue → JsonValue → Prop
  | .obj _, .obj _ => True
  | .arr _, .arr _ => True
  | v, w => v = w

theorem shapeKeeps_addMissing (idx : DNIndex) (v : JsonValue) :
    shapeKeeps v (addMissingDisplayNames idx v).1 := by
  cases v with
  | arr items => rw [addMissingDisplayNames]; exact trivial
  | obj fields =>
    rw [addMissingDisplayNames]
    split
    · dsimp only
      split <;> exact trivial
    · split <;> exact trivial
  | null => rfl
  | bool b => rfl
  | num n => rfl
  | str s => rfl

theorem findKeyCI_none_congr {α β : Type} (xs : List (String × α)) (ys : List (String × β))
    (h : xs.map Prod.fst = ys.map Prod.fst) (tgt : String) :
    findKeyCI xs tgt = none ↔ findKeyCI ys tgt = none := by
  induction xs generalizing ys with
  | nil =>
    cases ys with
    | nil => simp [findKeyCI]
    | cons y ys => simp at h
  | cons x xs ih =>
    cases ys with
    | nil => simp at h
    | cons y ys =>
      simp only [List.map_cons, List.cons.injEq] at h
      unfold findKeyCI
      rw [List.find?_cons, List.find?_cons, h.1]
      cases hk : lowerKey y.1 == tgt
      · exact ih ys h.2
      · simp

theorem findKeyCI_some_fillFields (kvs : List (String × JsonValue)) :
    ∀ (idx : DNIndex) (tgt k : String) (v : JsonValue),
      findKeyCI kvs tgt = some (k, v) →
      ∃ w, findKeyCI (fillFields idx kvs).1 tgt = some (k, w) ∧ shapeKeeps v w := by
  induction kvs with
  | nil => intro idx tgt k v h; simp [findKeyCI] at h
  | cons kv kvs ih =>
    obtain ⟨k0, v0⟩ := kv
    intro idx tgt k v h
    rw [fillFields]
    unfold findKeyCI at h ⊢
    rw [List.find?_cons] at h
    simp only []
    rw [List.find?_cons]
    cases hk : lowerKey k0 == tgt
    · rw [hk] at h
      simpa using ih _ tgt k v h
    · rw [hk] at h
      simp only [Option.some.injEq, Prod.mk.injEq] at h
      obtain ⟨h1, h2⟩ := h
      refine ⟨(addMissingDisplayNames idx v0).1, ?_, ?_⟩
      · rw [h1]
      · rw [← h2]
        exact shapeKeeps_addMissing idx v0

theorem findKeyCI_rev_fillFields (kvs : List (String × JsonValue)) :
    ∀ (idx : DNIndex) (tgt k : String) (w : JsonValue),
      findKeyCI (fillFields idx kvs).1 tgt = some (k, w) →
      ∃ v, findKeyCI kvs tgt = some (k, v) ∧ shapeKeeps v w := by
  induction kvs with
  | nil => intro idx tgt k w h; simp [findKeyCI, fillFields] at h
  | cons kv kvs ih =>
    obtain ⟨k0, v0⟩ := kv
    intro idx tgt k w h
    rw [fillFields] at h
    unfold findKeyCI at h ⊢
    simp only [] at h
    rw [List.find?_cons] at h
    rw [List.find?_cons]
    cases hk : lowerKey k0 == tgt
    · rw [hk] at h
      simpa using ih _ tgt k w h
    · rw [hk] at h
      simp only [Option.some.injEq, Prod.mk.injEq] at h
      obtain ⟨h1, h2⟩ := h
      subst h1
      exact ⟨v0, rfl, h2 ▸ shapeKeeps_addMissing idx v0⟩

theorem findKeyCI_key_matches (kvs : List (String × JsonValue)) (tgt k : String)
    (v : JsonValue) (h : findKeyCI kvs tgt = some (k, v)) : (lowerKey k == tgt) = true := by
  simpa using List.find?_some h

theorem shapeKeeps_str_right (v : JsonValue) (s : String) (h : shapeKeeps v (.str s)) :
    v = .str s := by
  cases v <;> exact h

theorem findKeyCI_setFieldValue (kvs : List (String × JsonValue)) (tgt k : String)
    (v w : JsonValue) (h : findKeyCI kvs tgt = some (k, v)) :
    findKeyCI (setFieldValue kvs k w) tgt = some (k, w) := by
  induction kvs with
  | nil => simp [findKeyCI] at h
  | cons kv kvs ih =>
    obtain ⟨k0, v0⟩ := kv
    unfold findKeyCI at h ⊢
    rw [List.find?_cons] at h
    cases hk : lowerKey k0 == tgt
    · rw [hk] at h
      have hne : (k0 == k) = false := by
        cases hbe : k0 == k
        · rfl
        · exfalso
          have hkk : k0 = k := by simpa using hbe
          subst hkk
          rw [findKeyCI_key_matches kvs tgt k0 v h] at hk
          exact Bool.noConfusion hk
      rw [setFieldValue, hne]
      simp only [Bool.false_eq_true, if_false, List.find?_cons, hk]
      exact ih h
    · rw [hk] at h
      simp only [Option.some.injEq, Prod.mk.injEq] at h
      obtain ⟨h1, h2⟩ := h
      subst h1
      rw [setFieldValue]
      simp only [beq_self_eq_true, if_true, List.find?_cons, hk]

theorem setFieldValue_self (kvs : List (String × JsonValue)) (tgt k : String)
    (v : JsonValue) (h : findKeyCI kvs tgt = some (k, v)) :
    setFieldValue kvs k v = kvs := by
  induction kvs with
  | nil => simp [findKeyCI] at h
  | cons kv kvs ih =>
    obtain ⟨k0, v0⟩ := kv
    unfold findKeyCI at h
    rw [List.find?_cons] at h
    cases hk : lowerKey k0 == tgt
    · rw [hk] at h
      have hne : (k0 == k) = false := by
        cases hbe : k0 == k
        · rfl
        · exfalso
          have hkk : k0 = k := by simpa using hbe
          subst hkk
          rw [findKeyCI_key_matches kvs tgt k0 v h] at hk
          exact Bool.noConfusion hk
      rw [setFieldValue, hne]
      simp only [Bool.false_eq_true, if_false, List.cons.injEq, true_and]
      exact ih h
    · rw [hk] at h
      simp only [Option.some.injEq, Prod.mk.injEq] at h
      obtain ⟨h1, h2⟩ := h
      subst h1; subst h2
      rw [setFieldValue]
      simp

theorem filledFields_append (xs ys : List (String × JsonValue)) :
    filledFields (xs ++ ys) = (filledFields xs && filledFields ys) := by
  induction xs with
  | nil => simp [filledFields]
  | cons kv kvs ih => simp [filledFields, ih, Bool.and_assoc]

theorem filledFields_setFieldValue_str (kvs : List (String × JsonValue)) (k s : String)
    (h : filledFields kvs = true) :
    filledFields (setFieldValue kvs k (.str s)) = true := by
  induction kvs with
  | nil => simp [setFieldValue, filledFields, filledVal]
  | cons kv kvs ih =>
    rw [filledFields, Bool.and_eq_true] at h
    rw [setFieldValue]
    by_cases hk : (kv.1 == k) = true
    · rw [if_pos hk, filledFields]
      simp only [Bool.and_eq_true]
      exact ⟨rfl, h.2⟩
    · rw [if_neg hk, filledFields]
      simp only [Bool.and_eq_true]
      exact ⟨h.1, ih h.2⟩

theorem shapeKeeps_str_left (s : String) (w : JsonValue) (h : shapeKeeps (.str s) w) :
    w = .str s := by
  cases w <;> exact h.symm

theorem filledVal_append_dn (fields : List (String × JsonValue)) (idx : DNIndex) (s : String)
    (hs : jsTrim s = s)
    (hd : findKeyCI fields "displayname" = none)
    (hf : filledFields (fillFields idx fields).1 = true) :
    filledVal (.obj ((fillFields idx fields).1 ++ [("displayName", .str s)])) = true := by
  have hdr : findKeyCI (fillFields idx fields).1 "displayname" = none :=
    (findKeyCI_none_congr (fillFields idx fields).1 fields
      (keys_fillFields fields idx) "displayname").2 hd
  have happ : findKeyCI ((fillFields idx fields).1 ++ [("displayName", JsonValue.str s)])
      "displayname" = some ("displayName", .str s) := by
    unfold findKeyCI at hdr ⊢
    rw [List.find?_append, hdr, List.find?_cons,
      show (lowerKey "displayName" == "displayname") = true from rfl]
    rfl
  rw [filledVal]
  simp only [Bool.and_eq_true]
  refine ⟨⟨?_, ?_⟩, ?_⟩
  · rw [happ]
    rcases findKeyCI ((fillFields idx fields).1 ++ [("displayName", JsonValue.str s)]) "title"
      with _ | ⟨a, b⟩
    · rfl
    · cases b <;> rfl
  · simp only [happ]
    simp [hs]
  · rw [filledFields_append, hf]
    rfl

theorem filledVal_trim_dn (fields : List (String × JsonValue)) (idx : DNIndex)
    (dk d : String)
    (hd : findKeyCI fields "displayname" = some (dk, .str d))
    (hf : filledFields (fillFields idx fields).1 = true) :
    filledVal (.obj (setFieldValue (fillFields idx fields).1 dk (.str (jsTrim d)))) = true := by
  obtain ⟨w, hw, hsh⟩ := findKeyCI_some_fillFields fields idx "displayname" dk (.str d) hd
  have hws : w = .str d := shapeKeeps_str_left d w hsh
  rw [hws] at hw
  have hS := findKeyCI_setFieldValue (fillFields idx fields).1 "displayname" dk
    (.str d) (.str (jsTrim d)) hw
  rw [filledVal]
  simp only [Bool.and_eq_true]
  refine ⟨⟨?_, ?_⟩, filledFields_setFieldValue_str _ _ _ hf⟩
  · rw [hS]
    rcases findKeyCI (setFieldValue (fillFields idx fields).1 dk (.str (jsTrim d))) "title"
      with _ | ⟨a, b⟩
    · rfl
    · cases b <;> rfl
  · simp only [hS]
    simp [jsTrim_idem]

theorem filledVal_noop (fields : List (String × JsonValue)) (idx : DNIndex)
    (hno : ∀ tk tv, findKeyCI fields "title" = some (tk, .str tv) →
        findKeyCI fields "displayname" ≠ none)
    (hnd : ∀ dk d, findKeyCI fields "displayname" ≠ some (dk, .str d))
    (hf : filledFields (fillFields idx fields).1 = true) :
    filledVal (.obj (fillFields idx fields).1) = true := by
  rw [filledVal]
  simp only [Bool.and_eq_true]
  refine ⟨⟨?_, ?_⟩, hf⟩
  · rcases hT : findKeyCI (fillFields idx fields).1 "title" with _ | ⟨a, b⟩
    · rcases hD : findKeyCI (fillFields idx fields).1 "displayname" with _ | ⟨c, e⟩ <;> rfl
    · rcases hD : findKeyCI (fillFields idx fields).1 "displayname" with _ | ⟨c, e⟩
      · cases b with
        | str tv =>
          exfalso
          obtain ⟨v, hv, hsh⟩ := findKeyCI_rev_fillFields fields idx "title" a (.str tv) hT
          have hvs := shapeKeeps_str_right v tv hsh
          rw [hvs] at hv
          exact hno a tv hv
            ((findKeyCI_none_congr (fillFields idx fields).1 fields
              (keys_fillFields fields idx) "displayname").1 hD)
        | null => rfl
        | bool x => rfl
        | num x => rfl
        | arr x => rfl
        | obj x => rfl
      · cases b <;> rfl
  · rcases hD : findKeyCI (fillFields idx fields).1 "displayname" with _ | ⟨c, e⟩
    · rfl
    · cases e with
      | str d =>
        exfalso
        obtain ⟨v, hv, hsh⟩ := findKeyCI_rev_fillFields fields idx "displayname" c (.str d) hD
        have hvs := shapeKeeps_str_right v d hsh
        rw [hvs] at hv
        exact hnd c d hv
      | null => rfl
      | bool x => rfl
      | num x => rfl
      | arr x => rfl
      | obj x => rfl

mutual

theorem filled_addMissing : ∀ (v : JsonValue) (idx : DNIndex),
    filledVal (addMissingDisplayNames idx v).1 = true
  | .null, _ => rfl
  | .bool _, _ => rfl
  | .num _, _ => rfl
  | .str _, _ => rfl
  | .arr items, idx => by
    rw [addMissingDisplayNames]
    exact filled_fillList items idx
  | .obj fields, idx => by
    rw [addMissingDisplayNames]
    split
    · next tk tv hT hD =>
      dsimp only
      split
      · next e hE =>
        exact filledVal_append_dn fields idx _ (jsTrim_idem _) hD
          (filled_fillFields fields idx)
      · next hE =>
        exact filledVal_append_dn fields _ _ (jsTrim_idem tv) hD
          (filled_fillFields fields _)
    · next hrow =>
      split
      · next dk d hD =>
        exact filledVal_trim_dn fields idx dk d hD (filled_fillFields fields idx)
      · next hnd =>
        exact filledVal_noop fields idx
          (fun tk tv h1 h2 => hrow tk tv h1 h2)
          (fun dk d hcontra => hnd dk d hcontra)
          (filled_fillFields fields idx)

theorem filled_fillList : ∀ (items : List JsonValue) (idx : DNIndex),
    filledList (fillList idx items).1 = true
  | [], _ => rfl
  | v :: vs, idx => by
    rw [fillList]
    dsimp only
    rw [filledList, Bool.and_eq_true]
    exact ⟨filled_addMissing v idx, filled_fillList vs _⟩

theorem filled_fillFields : ∀ (kvs : List (String × JsonValue)) (idx : DNIndex),
    filledFields (fillFields idx kvs).1 = true
  | [], _ => rfl
  | kv :: kvs, idx => by
    rw [fillFields]
    dsimp only
    rw [filledFields, Bool.and_eq_true]
    exact ⟨filled_addMissing kv.2 idx, filled_fillFields kvs _⟩

end

mutual

theorem addMissing_of_filled : ∀ (v : JsonValue) (idx : DNIndex),
    filledVal v = true → addMissingDisplayNames idx v = (v, idx)
  | .null, _, _ => rfl
  | .bool _, _, _ => rfl
  | .num _, _, _ => rfl
  | .str _, _, _ => rfl
  | .arr items, idx, h => by
    rw [filledVal] at h
    rw [addMissingDisplayNames]
    rw [fillList_of_filled items idx h]
  | .obj fields, idx, h => by
    rw [filledVal] at h
    simp only [Bool.and_eq_true] at h
    obtain ⟨⟨h1, h2⟩, h3⟩ := h
    rw [addMissingDisplayNames]
    split
    · next tk tv hT hD =>
      exfalso
      rw [hT, hD] at h1
      simp at h1
    · next hrow =>
      split
      · next dk d hD =>
        rw [hD] at h2
        have hdd : jsTrim d = d := by simpa using h2
        dsimp only
        rw [fillFields_of_filled fields idx h3]
        dsimp only
        rw [hdd, setFieldValue_self fields "displayname" dk (.str d) hD]
      · next hnd =>
        dsimp only
        rw [fillFields_of_filled fields idx h3]

theorem fillList_of_filled : ∀ (items : List JsonValue) (idx : DNIndex),
    filledList items = true → fillList idx items = (items, idx)
  | [], _, _ => rfl
  | v :: vs, idx, h => by
    rw [filledList, Bool.and_eq_true] at h
    rw [fillList]
    rw [addMissing_of_filled v idx h.1]
    dsimp only
    rw [fillList_of_filled vs idx h.2]

theorem fillFields_of_filled : ∀ (kvs : List (String × JsonValue)) (idx : DNIndex),
    filledFields kvs = true → fillFields idx kvs = (kvs, idx)
  | [], _, _ => rfl
  | kv :: kvs, idx, h => by
    rw [filledFields, Bool.and_eq_true] at h
    rw [fillFields]
    rw [addMissing_of_filled kv.2 idx h.1]
    dsimp only
    rw [fillFields_of_filled kvs idx h.2]

end

/-- C3: for every tree and any starting index, running the gap-filler twice
gives the same tree as running it once; the second run changes neither the
tree (all display-name strings are already trimmed and every string-titled
object already carries a displayname key) nor the index it is started with.
This holds whatever index the second run starts from, covering both the
threaded index and the index rebuilt by the extractor. -/
theorem C3_fill_missing_idempotent (idx₁ idx₂ : DNIndex) (t : JsonValue) :
    addMissingDisplayNames idx₂ (addMissingDisplayNames idx₁ t).1
      = ((addMissingDisplayNames idx₁ t).1, idx₂) :=
  addMissing_of_filled _ idx₂ (filled_addMissing t idx₁)

mutual

theorem addMissing_get_mono : ∀ (v : JsonValue) (idx : DNIndex) (s : String) (e : DisplayName),
    idx.get? s = some e → ((addMissingDisplayNames idx v).2).get? s = some e
  | .null, _, _, _, h => h
  | .bool _, _, _, _, h => h
  | .num _, _, _, _, h => h
  | .str _, _, _, _, h => h
  | .arr items, idx, s, e, h => by
    rw [addMissingDisplayNames]
    exact fillList_get_mono items idx s e h
  | .obj fields, idx, s, e, h => by
    rw [addMissingDisplayNames]
    split
    · next tk tv hT hD =>
      dsimp only
      split
      · next e2 hE =>
        exact fillFields_get_mono fields idx s e h
      · next hE =>
        apply fillFields_get_mono
        rw [DNIndex.get?_set]
        by_cases hst : s = jsTrim tv
        · rw [hst] at h
          rw [h] at hE
          exact Option.noConfusion hE
        · rw [if_neg hst]
          exact h
    · next hrow =>
      split
      · next dk d hD =>
        exact fillFields_get_mono fields idx s e h
      · next hnd =>
        exact fillFields_get_mono fields idx s e h

theorem fillList_get_mono : ∀ (items : List JsonValue) (idx : DNIndex) (s : String)
      (e : DisplayName),
    idx.get? s = some e → ((fillList idx items).2).get? s = some e
  | [], _, _, _, h => h
  | v :: vs, idx, s, e, h => by
    rw [fillList]
    exact fillList_get_mono vs _ s e (addMissing_get_mono v idx s e h)

theorem fillFields_get_mono : ∀ (kvs : List (String × JsonValue)) (idx : DNIndex) (s : String)
      (e : DisplayName),
    idx.get? s = some e → ((fillFields idx kvs).2).get? s = some e
  | [], _, _, _, h => h
  | kv :: kvs, idx, s, e, h => by
    rw [fillFields]
    exact fillFields_get_mono kvs _ s e (addMissing_get_mono kv.2 idx s e h)

end

/-- C6: during the gap-filler, an object node with a case-insensitive title
key holding a string `tv` and no case-insensitive displayname key receives an
appended field with the canonical spelling displayName: its value is the
trimmed index entry for the trimmed title when the index knows it, and the
trimmed title itself otherwise, in which case the default entry is inserted
into the index (and survives the recursion over the children); the other
fields keep their keys.  In particular an object whose only field is
`title: "Sun "` gains `displayName: "Sun"`. -/
theorem C6_gap_fill_default (idx : DNIndex) (fields : List (String × JsonValue))
    (tk tv : String)
    (h1 : findKeyCI fields "title" = some (tk, .str tv))
    (h2 : findKeyCI fields "displayname" = none) :
    ∃ rest idx',
      addMissingDisplayNames idx (.obj fields)
        = (.obj (rest ++ [("displayName",
            .str (match idx.get? (jsTrim tv) with
                  | some e => jsTrim e.displayName
                  | none => jsTrim tv))]), idx') ∧
      rest.map Prod.fst = fields.map Prod.fst ∧
      idx'.get? (jsTrim tv)
        = some (match idx.get? (jsTrim tv) with
                | some e => e
                | none => ⟨jsTrim tv, jsTrim tv⟩) := by
  rw [addMissingDisplayNames, h1, h2]
  dsimp only
  cases hE : idx.get? (jsTrim tv) with
  | some e =>
    refine ⟨(fillFields idx fields).1, (fillFields idx fields).2, rfl,
      keys_fillFields fields idx, ?_⟩
    exact fillFields_get_mono fields idx _ e hE
  | none =>
    refine ⟨(fillFields (idx.set (jsTrim tv) ⟨jsTrim tv, jsTrim tv⟩) fields).1,
      (fillFields (idx.set (jsTrim tv) ⟨jsTrim tv, jsTrim tv⟩) fields).2, rfl,
      keys_fillFields fields _, ?_⟩
    apply fillFields_get_mono
    rw [DNIndex.get?_set, if_pos rfl]

theorem C6_witness :
    (findKeyCI [("title", JsonValue.str "Sun ")] "title" = some ("title", .str "Sun ")) ∧
    (findKeyCI [("title", JsonValue.str "Sun ")] "displayname" = none) ∧
    (addMissingDisplayNames [] (.obj [("title", .str "Sun ")])
      = (.obj [("title", .str "Sun "), ("displayName", .str "Sun")],
         [("Sun", ⟨"Sun", "Sun"⟩)])) ∧
    ∃ rest idx',
      addMissingDisplayNames [] (.obj [("title", .str "Sun ")])
        = (.obj (rest ++ [("displayName",
            .str (match DNIndex.get? [] (jsTrim "Sun ") with
                  | some e => jsTrim e.displayName
                  | none => jsTrim "Sun "))]), idx') ∧
      rest.map Prod.fst = [("title", JsonValue.str "Sun ")].map Prod.fst ∧
      idx'.get? (jsTrim "Sun ")
        = some (match DNIndex.get? [] (jsTrim "Sun ") with
                | some e => e
                | none => ⟨jsTrim "Sun ", jsTrim "Sun "⟩) :=
  ⟨by decide, by decide, by decide,
   C6_gap_fill_default [] [("title", JsonValue.str "Sun ")] "title" "Sun "
     (by decide) (by decide)⟩

/-- Lookup in a translations mapping (a plain JavaScript object from title
to translated string), modelling `title in translations` and
`translations[title]`. -/
def lookupStr (m : List (String × String)) (k : String) : Option String :=
  (m.find? (fun p => p.1 == k)).map (fun p => p.2)

mutual

/-- Translation of the inner `traverse` of `updateJsonWithTranslations`
(+page.svelte, lines 111-137): for each object node, when it has a
case-insensitive title key whose string value is a key of `translations`,
every case-insensitive displayname key is deleted and a single canonical
`displayName` field holding the trimmed translation is appended; otherwise,
when the node has no string-valued title key but its first case-insensitive
displayname key holds a string, that value is trimmed in place.  The source
then recurses over the snapshot of keys taken before the node edit: deleted
values read as `undefined` and are skipped, the appended and trimmed values
are strings on which the recursion is the identity, and the traversal writes
no other state, so recursing into the original children first and applying
the node edit to the result is the same function. -/
def updateJsonWithTranslations (tr : List (String × String)) : JsonValue → JsonValue
  | .arr items => .arr (mergeList tr items)
  | .obj fields =>
    match findKeyCI fields "title" with
    | some (_, .str t) =>
      match lookupStr tr t with
      | some tv =>
        .obj (((mergeFields tr fields).filter
            (fun kv => !(lowerKey kv.1 == "displayname")))
          ++ [("displayName", .str (jsTrim tv))])
      | none => .obj (mergeFields tr fields)
    | _ =>
      match findKeyCI fields "displayname" with
      | some (dk, .str d) =>
        .obj (setFieldValue (mergeFields tr fields) dk (.str (jsTrim d)))
      | _ => .obj (mergeFields tr fields)
  | v => v
termination_by structural v => v

/-- Array recursion of the translation merge. -/
def mergeList (tr : List (String × String)) : List JsonValue → List JsonValue
  | [] => []
  | v :: vs => updateJsonWithTranslations tr v :: mergeList tr vs
termination_by structural l => l

/-- Field recursion of the translation merge (keys kept, values merged). -/
def mergeFields (tr : List (String × String)) :
    List (String × JsonValue) → List (String × JsonValue)
  | [] => []
  | kv :: kvs => (kv.1, updateJsonWithTranslations tr kv.2) :: mergeFields tr kvs
termination_by structural l => l

end

/-- Normalization half of the merge per-node rule: trim the first
case-insensitive displayname string in place. -/
def trimDNNode (fields : List (String × JsonValue)) : List (String × JsonValue) :=
  match findKeyCI fields "displayname" with
  | some (dk, .str d) => setFieldValue fields dk (.str (jsTrim d))
  | _ => fields

/-- Per-node rewrite following claim C4's words: when the node has a
title key whose string value is a key of the translations, delete every
case-insensitive displayname key and append the canonical trimmed
translation; OTHERWISE — which per the claim includes a node whose title is
present but not translated — trim the first case-insensitive displayname
string in place. -/
def mergeNodeClaim (tr : List (String × String)) (fields : List (String × JsonValue)) :
    List (String × JsonValue) :=
  match findKeyCI fields "title" with
  | some (_, .str t) =>
    match lookupStr tr t with
    | some tv =>
      (fields.filter (fun kv => !(lowerKey kv.1 == "displayname")))
        ++ [("displayName", .str (jsTrim tv))]
    | none => trimDNNode fields
  | _ => trimDNNode fields

/-- Per-node rewrite the code actually implements: the trim-in-place branch
runs only when the node has no string-valued title key at all; a node whose
string title is simply not covered by the translations is left untouched. -/
def mergeNodeCode (tr : List (String × String)) (fields : List (String × JsonValue)) :
    List (String × JsonValue) :=
  match findKeyCI fields "title" with
  | some (_, .str t) =>
    match lookupStr tr t with
    | some tv =>
      (fields.filter (fun kv => !(lowerKey kv.1 == "displayname")))
        ++ [("displayName", .str (jsTrim tv))]
    | none => fields
  | _ => trimDNNode fields

theorem findKeyCI_map_values {α β : Type} (g : α → β) (kvs : List (String × α)) (tgt : String) :
    findKeyCI (kvs.map (fun kv => (kv.1, g kv.2))) tgt
      = (findKeyCI kvs tgt).map (fun kv => (kv.1, g kv.2)) := by
  induction kvs with
  | nil => rfl
  | cons kv kvs ih =>
    unfold findKeyCI at ih ⊢
    rw [List.map_cons, List.find?_cons, List.find?_cons]
    cases hk : lowerKey kv.1 == tgt
    · exact ih
    · rfl

theorem mergeFields_eq_map (tr : List (String × String)) (kvs : List (String × JsonValue)) :
    mergeFields tr kvs = kvs.map (fun kv => (kv.1, updateJsonWithTranslations tr kv.2)) := by
  induction kvs with
  | nil => rfl
  | cons kv kvs ih => rw [mergeFields, List.map_cons, ih]

theorem merge_shape (tr : List (String × String)) (v : JsonValue) :
    shapeKeeps v (updateJsonWithTranslations tr v) := by
  cases v with
  | arr items => rw [updateJsonWithTranslations]; exact trivial
  | obj fields =>
    rw [updateJsonWithTranslations]
    split
    · split <;> exact trivial
    · split <;> exact trivial
  | null => rfl
  | bool b => rfl
  | num n => rfl
  | str s => rfl

theorem shapeKeeps_nonstr (v w : JsonValue) (h : shapeKeeps v w)
    (hv : ∀ s, v ≠ .str s) : ∀ s, w ≠ .str s := by
  intro s hw
  rw [hw] at h
  exact hv s (shapeKeeps_str_right v s h)

theorem mergeNodeCode_title_none (tr : List (String × String))
    (kvs : List (String × JsonValue)) (h : findKeyCI kvs "title" = none) :
    mergeNodeCode tr kvs = trimDNNode kvs := by
  unfold mergeNodeCode
  rw [h]

theorem mergeNodeCode_title_nonstr (tr : List (String × String))
    (kvs : List (String × JsonValue)) (k : String) (w : JsonValue)
    (h : findKeyCI kvs "title" = some (k, w)) (hw : ∀ s, w ≠ .str s) :
    mergeNodeCode tr kvs = trimDNNode kvs := by
  unfold mergeNodeCode
  rw [h]
  cases w with
  | str s => exact absurd rfl (hw s)
  | null => rfl
  | bool b => rfl
  | num n => rfl
  | arr a => rfl
  | obj o => rfl

theorem mergeNodeCode_title_str (tr : List (String × String))
    (kvs : List (String × JsonValue)) (k t : String)
    (h : findKeyCI kvs "title" = some (k, .str t)) :
    mergeNodeCode tr kvs =
      match lookupStr tr t with
      | some tv =>
        (kvs.filter (fun kv => !(lowerKey kv.1 == "displayname")))
          ++ [("displayName", .str (jsTrim tv))]
      | none => kvs := by
  unfold mergeNodeCode
  rw [h]

theorem trimDNNode_none (kvs : List (String × JsonValue))
    (h : findKeyCI kvs "displayname" = none) : trimDNNode kvs = kvs := by
  unfold trimDNNode
  rw [h]

theorem trimDNNode_nonstr (kvs : List (String × JsonValue)) (k : String) (w : JsonValue)
    (h : findKeyCI kvs "displayname" = some (k, w)) (hw : ∀ s, w ≠ .str s) :
    trimDNNode kvs = kvs := by
  unfold trimDNNode
  rw [h]
  cases w with
  | str s => exact absurd rfl (hw s)
  | null => rfl
  | bool b => rfl
  | num n => rfl
  | arr a => rfl
  | obj o => rfl

theorem trimDNNode_str (kvs : List (String × JsonValue)) (k d : String)
    (h : findKeyCI kvs "displayname" = some (k, .str d)) :
    trimDNNode kvs = setFieldValue kvs k (.str (jsTrim d)) := by
  unfold trimDNNode
  rw [h]

theorem merge_fallback_eq (tr : List (String × String))
    (fields : List (String × JsonValue)) :
    (match findKeyCI fields "displayname" with
     | some (dk, .str d) =>
       JsonValue.obj (setFieldValue (mergeFields tr fields) dk (.str (jsTrim d)))
     | _ => JsonValue.obj (mergeFields tr fields))
      = .obj (trimDNNode (mergeFields tr fields)) := by
  have hM : ∀ tgt, findKeyCI (mergeFields tr fields) tgt
      = (findKeyCI fields tgt).map
          (fun kv => (kv.1, updateJsonWithTranslations tr kv.2)) := by
    intro tgt
    rw [mergeFields_eq_map, findKeyCI_map_values]
  rcases hd : findKeyCI fields "displayname" with _ | ⟨dk, dw⟩
  · rw [trimDNNode_none _ (by rw [hM, hd]; rfl)]
  · cases dw with
    | str d => rw [trimDNNode_str _ dk d (by rw [hM, hd]; rfl)]
    | null =>
      rw [trimDNNode_nonstr _ dk _ (by rw [hM, hd]; rfl)
        (by intro s h; exact JsonValue.noConfusion h)]
    | bool b =>
      rw [trimDNNode_nonstr _ dk _ (by rw [hM, hd]; rfl)
        (by intro s h; exact JsonValue.noConfusion h)]
    | num n =>
      rw [trimDNNode_nonstr _ dk _ (by rw [hM, hd]; rfl)
        (by intro s h; exact JsonValue.noConfusion h)]
    | arr a =>
      rw [trimDNNode_nonstr _ dk _ (by rw [hM, hd]; rfl)
        (shapeKeeps_nonstr _ _ (merge_shape tr (.arr a))
          (by intro s h; exact JsonValue.noConfusion h))]
    | obj o =>
      rw [trimDNNode_nonstr _ dk _ (by rw [hM, hd]; rfl)
        (shapeKeeps_nonstr _ _ (merge_shape tr (.obj o))
          (by intro s h; exact JsonValue.noConfusion h))]

mutual

theorem merge_eq_spec (tr : List (String × String)) : ∀ v : JsonValue,
    updateJsonWithTranslations tr v = mapObjNodes (mergeNodeCode tr) v
  | .null => rfl
  | .bool _ => rfl
  | .num _ => rfl
  | .str _ => rfl
  | .arr items => by
    rw [updateJsonWithTranslations, mapObjNodes]
    exact congrArg JsonValue.arr (mergeList_eq_spec tr items)
  | .obj fields => by
    rw [updateJsonWithTranslations, mapObjNodes, ← mergeFields_eq_spec tr fields]
    have hM : ∀ tgt, findKeyCI (mergeFields tr fields) tgt
        = (findKeyCI fields tgt).map
            (fun kv => (kv.1, updateJsonWithTranslations tr kv.2)) := by
      intro tgt
      rw [mergeFields_eq_map, findKeyCI_map_values]
    rcases ht : findKeyCI fields "title" with _ | ⟨k, w⟩
    · have hMt : findKeyCI (mergeFields tr fields) "title" = none := by
        rw [hM, ht]; rfl
      rw [mergeNodeCode_title_none tr _ hMt]
      rcases hd : findKeyCI fields "displayname" with _ | ⟨dk, dw⟩
      · have hMd : findKeyCI (mergeFields tr fields) "displayname" = none := by
          rw [hM, hd]; rfl
        rw [trimDNNode_none _ hMd]
      · cases dw with
        | str d =>
          have hMd : findKeyCI (mergeFields tr fields) "displayname"
              = some (dk, .str d) := by
            rw [hM, hd]; rfl
          rw [trimDNNode_str _ dk d hMd]
        | null =>
          have hMd : findKeyCI (mergeFields tr fields) "displayname"
              = some (dk, .null) := by rw [hM, hd]; rfl
          rw [trimDNNode_nonstr _ dk _ hMd (by intro s h; exact JsonValue.noConfusion h)]
        | bool b =>
          have hMd : findKeyCI (mergeFields tr fields) "displayname"
              = some (dk, .bool b) := by rw [hM, hd]; rfl
          rw [trimDNNode_nonstr _ dk _ hMd (by intro s h; exact JsonValue.noConfusion h)]
        | num n =>
          have hMd : findKeyCI (mergeFields tr fields) "displayname"
              = some (dk, .num n) := by rw [hM, hd]; rfl
          rw [trimDNNode_nonstr _ dk _ hMd (by intro s h; exact JsonValue.noConfusion h)]
        | arr a =>
          have hMd : findKeyCI (mergeFields tr fields) "displayname"
              = some (dk, updateJsonWithTranslations tr (.arr a)) := by rw [hM, hd]; rfl
          rw [trimDNNode_nonstr _ dk _ hMd
            (shapeKeeps_nonstr _ _ (merge_shape tr (.arr a))
              (by intro s h; exact JsonValue.noConfusion h))]
        | obj o =>
          have hMd : findKeyCI (mergeFields tr fields) "displayname"
              = some (dk, updateJsonWithTranslations tr (.obj o)) := by rw [hM, hd]; rfl
          rw [trimDNNode_nonstr _ dk _ hMd
            (shapeKeeps_nonstr _ _ (merge_shape tr (.obj o))
              (by intro s h; exact JsonValue.noConfusion h))]
    · cases w with
      | str t =>
        have hMt : findKeyCI (mergeFields tr fields) "title" = some (k, .str t) := by
          rw [hM, ht]; rfl
        rw [mergeNodeCode_title_str tr _ k t hMt]
        dsimp only
        cases hl : lookupStr tr t with
        | some tv => rfl
        | none => rfl
      | null =>
        have hMt : findKeyCI (mergeFields tr fields) "title" = some (k, .null) := by
          rw [hM, ht]; rfl
        rw [mergeNodeCode_title_nonstr tr _ k _ hMt
          (by intro s h; exact JsonValue.noConfusion h)]
        exact merge_fallback_eq tr fields
      | bool b =>
        have hMt : findKeyCI (mergeFields tr fields) "title" = some (k, .bool b) := by
          rw [hM, ht]; rfl
        rw [mergeNodeCode_title_nonstr tr _ k _ hMt
          (by intro s h; exact JsonValue.noConfusion h)]
        exact merge_fallback_eq tr fields
      | num n =>
        have hMt : findKeyCI (mergeFields tr fields) "title" = some (k, .num n) := by
          rw [hM, ht]; rfl
        rw [mergeNodeCode_title_nonstr tr _ k _ hMt
          (by intro s h; exact JsonValue.noConfusion h)]
        exact merge_fallback_eq tr fields
      | arr a =>
        have hMt : findKeyCI (mergeFields tr fields) "title"
            = some (k, updateJsonWithTranslations tr (.arr a)) := by rw [hM, ht]; rfl
        rw [mergeNodeCode_title_nonstr tr _ k _ hMt
          (shapeKeeps_nonstr _ _ (merge_shape tr (.arr a))
            (by intro s h; exact JsonValue.noConfusion h))]
        exact merge_fallback_eq tr fields
      | obj o =>
        have hMt : findKeyCI (mergeFields tr fields) "title"
            = some (k, updateJsonWithTranslations tr (.obj o)) := by rw [hM, ht]; rfl
        rw [mergeNodeCode_title_nonstr tr _ k _ hMt
          (shapeKeeps_nonstr _ _ (merge_shape tr (.obj o))
            (by intro s h; exact JsonValue.noConfusion h))]
        exact merge_fallback_eq tr fields

theorem mergeList_eq_spec (tr : List (String × String)) : ∀ items : List JsonValue,
    mergeList tr items = mapObjNodesList (mergeNodeCode tr) items
  | [] => rfl
  | v :: vs => by
    rw [mergeList, mapObjNodesList, merge_eq_spec tr v, mergeList_eq_spec tr vs]

theorem mergeFields_eq_spec (tr : List (String × String)) :
    ∀ kvs : List (String × JsonValue),
    mergeFields tr kvs = mapObjNodesFields (mergeNodeCode tr) kvs
  | [] => rfl
  | kv :: kvs => by
    rw [mergeFields, mapObjNodesFields, merge_eq_spec tr kv.2, mergeFields_eq_spec tr kvs]

end

/-- C4 counterexample: with an empty translations mapping, the code leaves a
node whose title key is present but untranslated completely untouched (its
displayName keeps its surrounding spaces), while the claim's "otherwise, if
the node has an existing displayname-key with a string value, that value is
replaced by its trimmed form" demands trimming; the two disagree at this
concrete input. -/
theorem C4_counterexample :
    updateJsonWithTranslations []
        (.obj [("title", .str "X"), ("displayName", .str " y ")])
      = .obj [("title", .str "X"), ("displayName", .str " y ")] ∧
    mapObjNodes (mergeNodeClaim [])
        (.obj [("title", .str "X"), ("displayName", .str " y ")])
      = .obj [("title", .str "X"), ("displayName", .str "y")] ∧
    updateJsonWithTranslations []
        (.obj [("title", .str "X"), ("displayName", .str " y ")])
      ≠ mapObjNodes (mergeNodeClaim [])
        (.obj [("title", .str "X"), ("displayName", .str " y ")]) :=
  ⟨by decide, by decide, by decide⟩

/-- C4 (amended): during Translation Merge, every object node with a
title-key whose string value t is a key of the translations has all its
case-insensitive displayname keys deleted and a single canonical
`displayName` with value trim(translations[t]) appended; a node with NO
string-valued title-key whose first case-insensitive displayname key holds a
string has that value trimmed in place; a node whose string title is simply
absent from the translations is left untouched; every child value is
recursed into regardless.  Stated as equality with the per-node rule mapped
over all object nodes. -/
theorem C4_translation_merge (tr : List (String × String)) (v : JsonValue) :
    updateJsonWithTranslations tr v = mapObjNodes (mergeNodeCode tr) v :=
  merge_eq_spec tr v

/-- Spec example for the merge: stray-cased displayname keys are deleted and
a single canonical trimmed `displayName` is produced. -/
theorem merge_home_example :
    updateJsonWithTranslations [("Home", "  Accueil  ")]
        (.obj [("title", .str "Home"), ("DisplayName", .str "Home")])
      = .obj [("title", .str "Home"), ("displayName", .str "Accueil")] := by
  decide

/-- Translation of the success path of `translateDisplayNames` (+page.svelte,
lines 83-99): the `displayNames` index is copied and patched in place — each
translated title already present as a key gets the raw translated string,
with no trimming — and the tree is rewritten by `updateJsonWithTranslations`;
the extractor is not re-run. -/
def translateMergeOk (idx : DNIndex) (tree : JsonValue) (tr : List (String × String)) :
    DNIndex × JsonValue :=
  (tr.foldl (fun i p =>
      match i.get? p.1 with
      | some e => i.set p.1 ⟨e.title, p.2⟩
      | none => i) idx,
   updateJsonWithTranslations tr tree)

/-- Translation of `handleAddMissingDisplayNames` (+page.svelte, lines
371-379): run the gap-filler on the tree, then clear the index and re-run
the extractor on the updated tree. -/
def handleAddMissingDisplayNames (idx : DNIndex) (tree : JsonValue) :
    DNIndex × JsonValue :=
  let r := addMissingDisplayNames idx tree
  (extractDisplayNames [] r.1, r.1)

/-- C5 counterexample: after a Translation Merge of `Home` to the padded
string `"  Accueil  "`, the index holds the raw untrimmed translation while
the tree holds the trimmed one, so the index differs from re-running the
extractor on the updated tree — the merge patches the index incrementally
instead of rebuilding it. -/
theorem C5_counterexample :
    (translateMergeOk
        (extractDisplayNames [] (.obj [("title", .str "Home"), ("displayName", .str "Home")]))
        (.obj [("title", .str "Home"), ("displayName", .str "Home")])
        [("Home", "  Accueil  ")]).1
      ≠ extractDisplayNames []
          (translateMergeOk
            (extractDisplayNames []
              (.obj [("title", .str "Home"), ("displayName", .str "Home")]))
            (.obj [("title", .str "Home"), ("displayName", .str "Home")])
            [("Home", "  Accueil  ")]).2 := by
  decide

/-- C5 (amended): after every run of the Gap-Filler the index is fully
rebuilt by re-running the Extractor on the updated tree (never incrementally
patched), so every surviving entry is re-derived with last-write-wins; after
a Translation Merge, by contrast, the index is patched in place with the raw
translated strings and is not rebuilt. -/
theorem C5_gap_filler_rebuilds_index (idx : DNIndex) (t : JsonValue) :
    (handleAddMissingDisplayNames idx t).1
      = extractDisplayNames [] (handleAddMissingDisplayNames idx t).2 := rfl

/-- Translation of `parseJson` (+page.svelte, lines 208-218) acting on the
editable state (parsed tree, displayNames index).  `JSON.parse` is the
platform's parser, an external collaborator here passed as a function
returning a value or a parse error.  On success the state becomes the parsed
tree with a freshly extracted index; on failure the try-block aborts at its
first statement before any assignment, the error is only logged, and the
previous state is kept. -/
def parseJsonStep (parse : String → Except String JsonValue) (input : String)
    (st : Option JsonValue × DNIndex) : Option JsonValue × DNIndex :=
  match parse input with
  | .ok v => (some v, extractDisplayNames [] v)
  | .error _ => st

/-- C8: when the parser fails on the input, `parseJson` leaves the previously
valid tree and index completely unchanged — `JSON.parse` is the first
statement of the try-block, so no partial mutation of the editable state can
happen, and the failure is caught rather than crashing. -/
theorem C8_parse_error_atomic (parse : String → Except String JsonValue) (input : String)
    (st : Option JsonValue × DNIndex) (msg : String)
    (h : parse input = .error msg) :
    parseJsonStep parse input st = st := by
  unfold parseJsonStep
  rw [h]

theorem C8_witness :
    ((fun _ : String => (.error "unexpected end of input" : Except String JsonValue)) "not json"
        = .error "unexpected end of input") ∧
    parseJsonStep (fun _ => .error "unexpected end of input") "not json"
      (some (.obj [("title", .str "A"), ("displayName", .str "B")]), [("A", ⟨"A", "B"⟩)])
      = (some (.obj [("title", .str "A"), ("displayName", .str "B")]), [("A", ⟨"A", "B"⟩)]) :=
  ⟨rfl, C8_parse_error_atomic (fun _ => .error "unexpected end of input") "not json"
    (some (.obj [("title", .str "A"), ("displayName", .str "B")]), [("A", ⟨"A", "B"⟩)])
    "unexpected end of input" rfl⟩

/-- State of the batching loop of `translateTitles`
(api/translate/+server.ts, lines 48-92): flushed batches so far, the current
batch, the running length `batchLength`, and the set of titles already cached
for the target language (`targetLang in (updatedCache[title] || {})`; the
cached translation text itself never influences batching). -/
structure BatchState where
  done : List (List String)
  batch : List String
  batchLength : Nat
  known : List String
  deriving Repr, DecidableEq

/-- One iteration of `for (const title of titles)`: a cached title is
answered from the cache and skipped; otherwise when
`batchLength + title.length + 2 > 500` and the batch is non-empty, the batch
is flushed (translated and cached) first; the title is then pushed and
`batchLength` grows by `title.length + 2` for the separator. -/
def batchStep (st : BatchState) (title : String) : BatchState :=
  if st.known.contains title then st
  else
    let st' :=
      if st.batchLength + title.length + 2 > 500 ∧ st.batch ≠ [] then
        { done := st.done ++ [st.batch], batch := [], batchLength := 0,
          known := st.known ++ st.batch }
      else st
    { st' with batch := st'.batch ++ [title],
               batchLength := st'.batchLength + title.length + 2 }

/-- Batches produced by `translateTitles` for a title list, given the titles
already cached for the target language: the loop followed by the final
`if (batch.length > 0) await translateBatch(batch)`. -/
def translateBatches (known : List String) (titles : List String) : List (List String) :=
  let st := titles.foldl batchStep ⟨[], [], 0, known⟩
  if st.batch ≠ [] then st.done ++ [st.batch] else st.done

/-- Joined length of a batch: `batch.join('||').length`, the title lengths
plus two characters per separator. -/
def joinedLen (batch : List String) : Nat :=
  (batch.map String.length).sum + 2 * (batch.length - 1)

/-- Invariant of the batching loop: flushed batches are non-empty and, when
they hold at least two titles, their joined length stays at most 498;
`batchLength` counts the current batch's titles plus two per title; a current
batch of two or more titles has `batchLength` at most 500. -/
def batchInv (st : BatchState) : Prop :=
  (∀ b ∈ st.done, b ≠ [] ∧ (2 ≤ b.length → joinedLen b ≤ 498)) ∧
  st.batchLength = (st.batch.map String.length).sum + 2 * st.batch.length ∧
  (2 ≤ st.batch.length → st.batchLength ≤ 500)

theorem batchStep_inv (st : BatchState) (title : String) (h : batchInv st) :
    batchInv (batchStep st title) := by
  obtain ⟨h1, h2, h3⟩ := h
  unfold batchStep
  by_cases hk : st.known.contains title = true
  · rw [if_pos hk]
    exact ⟨h1, h2, h3⟩
  · rw [if_neg hk]
    by_cases hf : st.batchLength + title.length + 2 > 500 ∧ st.batch ≠ []
    · rw [if_pos hf]
      refine ⟨?_, ?_, ?_⟩
      · intro b hb
        rw [List.mem_append] at hb
        rcases hb with hb | hb
        · exact h1 b hb
        · rw [List.mem_singleton] at hb
          subst hb
          refine ⟨hf.2, fun hlen => ?_⟩
          have := h3 hlen
          unfold joinedLen
          omega
      · simp
      · intro hlen
        simp at hlen
    · rw [if_neg hf]
      dsimp only
      refine ⟨h1, ?_, ?_⟩
      · dsimp only
        simp only [List.map_append, List.sum_append, List.length_append, List.map_cons,
          List.map_nil, List.sum_cons, List.sum_nil, List.length_cons, List.length_nil]
        omega
      · dsimp only
        intro hlen
        simp only [List.length_append, List.length_singleton] at hlen
        have hne : st.batch ≠ [] := by
          intro e
          rw [e] at hlen
          simp at hlen
        have hle : ¬(st.batchLength + title.length + 2 > 500) := fun hgt => hf ⟨hgt, hne⟩
        omega

theorem foldl_batchStep_inv (titles : List String) (st : BatchState) (h : batchInv st) :
    batchInv (titles.foldl batchStep st) := by
  induction titles generalizing st with
  | nil => exact h
  | cons t ts ih => exact ih _ (batchStep_inv st t h)

set_option maxRecDepth 8000 in
/-- C9 counterexample: a single 500-character title forms its own batch whose
joined length is exactly 500, which is not under the 500-character budget;
the guard `batch.length > 0` admits an oversized lone title. -/
theorem C9_counterexample :
    translateBatches [] [String.mk (List.replicate 500 'a')]
        = [[String.mk (List.replicate 500 'a')]] ∧
    joinedLen [String.mk (List.replicate 500 'a')] = 500 ∧
    ¬ (∀ b ∈ translateBatches [] [String.mk (List.replicate 500 'a')],
        joinedLen b < 500) :=
  ⟨by decide, by decide, by decide⟩

/-- Concatenation of the batches already flushed and the batch being built. -/
def joinAll (st : BatchState) : List String := st.done.flatten ++ st.batch

theorem joinAll_batchStep (st : BatchState) (t : String) :
    joinAll (batchStep st t) = joinAll st ∨
    joinAll (batchStep st t) = joinAll st ++ [t] := by
  unfold batchStep joinAll
  by_cases hk : st.known.contains t = true
  · rw [if_pos hk]
    exact Or.inl rfl
  · rw [if_neg hk]
    by_cases hf : st.batchLength + t.length + 2 > 500 ∧ st.batch ≠ []
    · rw [if_pos hf]
      right
      dsimp only
      rw [List.flatten_append]
      simp
    · rw [if_neg hf]
      right
      dsimp only
      rw [List.append_assoc]

theorem joinAll_foldl (titles : List String) (st : BatchState) :
    ∃ u, List.Sublist u titles ∧
      joinAll (titles.foldl batchStep st) = joinAll st ++ u := by
  induction titles generalizing st with
  | nil => exact ⟨[], List.nil_sublist [], by simp⟩
  | cons t ts ih =>
    obtain ⟨u, hu, he⟩ := ih (batchStep st t)
    rcases joinAll_batchStep st t with h | h
    · exact ⟨u, List.Sublist.cons t hu, by rw [List.foldl_cons, he, h]⟩
    · refine ⟨t :: u, List.Sublist.cons₂ t hu, ?_⟩
      rw [List.foldl_cons, he, h, List.append_assoc, List.singleton_append]

theorem translateBatches_join (known titles : List String) :
    (translateBatches known titles).flatten
      = joinAll (titles.foldl batchStep ⟨[], [], 0, known⟩) := by
  unfold translateBatches joinAll
  by_cases h : (titles.foldl batchStep ⟨[], [], 0, known⟩).batch ≠ []
  · rw [if_pos h, List.flatten_append]
    simp
  · rw [if_neg h]
    simp only [ne_eq, Decidable.not_not] at h
    rw [h]
    simp

/-- C9 (amended): the uncached titles are grouped, in submission order, into
non-empty batches — the concatenation of all batches is an in-order
subsequence of the submitted title list — and every batch holding at least
two titles has joined length (with the two-character separator) at most 498,
strictly under the 500-character budget; only a batch made of one single
oversized title can reach or exceed the budget, because a title is always
pushed onto the batch it opens regardless of its own length. -/
theorem C9_batching (known titles : List String) :
    (∀ b ∈ translateBatches known titles,
      b ≠ [] ∧ (2 ≤ b.length → joinedLen b ≤ 498)) ∧
    List.Sublist ((translateBatches known titles).flatten) titles := by
  constructor
  · have h0 : batchInv ⟨[], [], 0, known⟩ := by
      refine ⟨by simp, by simp, by simp⟩
    have hInv := foldl_batchStep_inv titles ⟨[], [], 0, known⟩ h0
    obtain ⟨h1, h2, h3⟩ := hInv
    unfold translateBatches
    by_cases hne : (titles.foldl batchStep ⟨[], [], 0, known⟩).batch ≠ []
    · rw [if_pos hne]
      intro b hb
      rw [List.mem_append] at hb
      rcases hb with hb | hb
      · exact h1 b hb
      · rw [List.mem_singleton] at hb
        subst hb
        refine ⟨hne, fun hlen => ?_⟩
        have := h3 hlen
        unfold joinedLen
        omega
    · rw [if_neg hne]
      intro b hb
      exact h1 b hb
  · rw [translateBatches_join]
    obtain ⟨u, hu, he⟩ := joinAll_foldl titles ⟨[], [], 0, known⟩
    rw [he]
    simpa [joinAll] using hu

theorem C9_batching_witness :
    (["ab", "cd"] ∈ translateBatches [] ["ab", "cd"]) ∧
    (["ab", "cd"] ≠ [] ∧ (2 ≤ (["ab", "cd"] : List String).length →
      joinedLen ["ab", "cd"] ≤ 498)) :=
  ⟨by decide, (C9_batching [] ["ab", "cd"]).1 ["ab", "cd"] (by decide)⟩

/-- Primitive JavaScript values; they are immutable and compared by value. -/
inductive JsPrim where
  | null
  | bool (b : Bool)
  | num (n : Int)
  | str (s : String)
  deriving Repr, DecidableEq

/-- A JavaScript runtime value: a primitive or a reference into the heap. -/
inductive HVal where
  | prim (p : JsPrim)
  | ref (a : Nat)
  deriving Repr, DecidableEq

/-- A heap node: an object with ordered fields or an array. -/
inductive HNode where
  | obj (fields : List (String × HVal))
  | arr (items : List HVal)
  deriving Repr, DecidableEq

/-- The heap of a running page: the node with address `a` is the `a`-th
entry; allocation appends at the end. -/
abbrev Store := List HNode

/-- JavaScript assignment `obj[k] = v` on a heap object's field list. -/
def setFieldH : List (String × HVal) → String → HVal → List (String × HVal)
  | [], k, v => [(k, v)]
  | kv :: rest, k, v => if kv.1 == k then (k, v) :: rest else kv :: setFieldH rest k v

/-- Node-level branch of the heap gap-filler, applied to the shallow copy's
field list before the child loop: inject the canonical displayName (from the
index when known, else the trimmed title, which also enters the index), or
trim the first case-insensitive displayname string. -/
def gapFillNodeEdit (idx : DNIndex) (fields : List (String × HVal)) :
    List (String × HVal) × DNIndex :=
  match findKeyCI fields "title", findKeyCI fields "displayname" with
  | some (_, .prim (.str tv)), none =>
    let t := jsTrim tv
    match idx.get? t with
    | some e =>
      (fields ++ [("displayName", .prim (.str (jsTrim e.displayName)))], idx)
    | none => (fields ++ [("displayName", .prim (.str t))], idx.set t ⟨t, t⟩)
  | _, _ =>
    match findKeyCI fields "displayname" with
    | some (dk, .prim (.str d)) => (setFieldH fields dk (.prim (.str (jsTrim d))), idx)
    | _ => (fields, idx)

mutual

/-- Heap-level translation of `addMissingDisplayNames` (+page.svelte, lines
338-369), tracking object identity so that mutation of the argument is
observable: a primitive is returned as is; for a reference the node is read;
`const obj = { ...value }` allocates a fresh shallow copy (here the copy is
allocated with the branch's string edit already applied, which is the same
store since the fresh address is written before anything reads it); the
`for key in obj` loop then recurses on each field of the fresh copy in order
and writes the result back into the copy.  Recursion through the heap uses
fuel, decremented on every call, and fails on dangling references or when
the fuel runs out; parsed JSON documents are finite and acyclic, so enough
fuel always exists. -/
def addMissingH : Nat → DNIndex → HVal → Store → Option (HVal × Store × DNIndex)
  | 0, _, _, _ => none
  | fuel + 1, idx, v, σ =>
    match v with
    | .prim p => some (.prim p, σ, idx)
    | .ref a =>
      match σ.get? a with
      | none => none
      | some (.arr items) =>
        match fillItemsH fuel idx items σ with
        | none => none
        | some (items2, σ2, idx2) => some (.ref σ2.length, σ2 ++ [.arr items2], idx2)
      | some (.obj fields) =>
        let step := gapFillNodeEdit idx fields
        match fillFieldsAtH fuel step.2 σ.length step.1.length 0 (σ ++ [HNode.obj step.1]) with
        | none => none
        | some (σ2, idx2) => some (.ref σ.length, σ2, idx2)
termination_by structural fuel => fuel

/-- Heap recursion over the elements of `value.map(addMissingDisplayNames)`. -/
def fillItemsH : Nat → DNIndex → List HVal → Store → Option (List HVal × Store × DNIndex)
  | _, idx, [], σ => some ([], σ, idx)
  | 0, _, _ :: _, _ => none
  | fuel + 1, idx, v :: vs, σ =>
    match addMissingH fuel idx v σ with
    | none => none
    | some (v2, σ2, idx2) =>
      match fillItemsH fuel idx2 vs σ2 with
      | none => none
      | some (vs2, σ3, idx3) => some (v2 :: vs2, σ3, idx3)
termination_by structural fuel => fuel

/-- The `for (const key in obj) obj[key] = addMissingDisplayNames(obj[key])`
loop over the fresh copy at address `b`: at each position the current field
value is read from the store, recursed on, and the result written back. -/
def fillFieldsAtH : Nat → DNIndex → Nat → Nat → Nat → Store → Option (Store × DNIndex)
  | _, idx, _, 0, _, σ => some (σ, idx)
  | 0, _, _, _ + 1, _, _ => none
  | fuel + 1, idx, b, count + 1, i, σ =>
    match σ.get? b with
    | some (.obj fields) =>
      match fields.get? i with
      | none => some (σ, idx)
      | some (k, v) =>
        match addMissingH fuel idx v σ with
        | none => none
        | some (v2, σ2, idx2) =>
          match σ2.get? b with
          | some (.obj fields2) =>
            fillFieldsAtH fuel idx2 b count (i + 1) (σ2.set b (.obj (fields2.set i (k, v2))))
          | _ => none
    | _ => none
termination_by structural fuel => fuel

end

/-- Frame relation between stores: the new store is at least as large and
agrees with the old one on every old address. -/
def framePreserves (σ σ' : Store) : Prop :=
  σ.length ≤ σ'.length ∧ ∀ a, a < σ.length → σ'[a]? = σ[a]?

/-- Frame relation that additionally permits writes to one address `b` (the
fresh shallow copy being built). -/
def frameExcept (b : Nat) (σ σ' : Store) : Prop :=
  σ.length ≤ σ'.length ∧ ∀ a, a < σ.length → a ≠ b → σ'[a]? = σ[a]?

theorem framePreserves_refl (σ : Store) : framePreserves σ σ :=
  ⟨Nat.le_refl _, fun _ _ => rfl⟩

theorem framePreserves_trans {σ₁ σ₂ σ₃ : Store} (h1 : framePreserves σ₁ σ₂)
    (h2 : framePreserves σ₂ σ₃) : framePreserves σ₁ σ₃ :=
  ⟨Nat.le_trans h1.1 h2.1,
   fun a ha => ((h2.2 a (Nat.lt_of_lt_of_le ha h1.1)).trans (h1.2 a ha))⟩

theorem framePreserves_append (σ : Store) (l : List HNode) :
    framePreserves σ (σ ++ l) :=
  ⟨by simp, fun a ha => List.getElem?_append_left ha⟩


theorem heap_frame : ∀ fuel : Nat,
    (∀ idx v σ v' σ' idx', addMissingH fuel idx v σ = some (v', σ', idx') →
      framePreserves σ σ') ∧
    (∀ idx items σ items' σ' idx', fillItemsH fuel idx items σ = some (items', σ', idx') →
      framePreserves σ σ') ∧
    (∀ idx b count i σ σ' idx', fillFieldsAtH fuel idx b count i σ = some (σ', idx') →
      frameExcept b σ σ') := by
  intro fuel
  induction fuel with
  | zero =>
    refine ⟨?_, ?_, ?_⟩
    · intro idx v σ v' σ' idx' h
      exact Option.noConfusion h
    · intro idx items σ items' σ' idx' h
      cases items with
      | nil =>
        rw [fillItemsH] at h
        simp only [Option.some.injEq, Prod.mk.injEq] at h
        rw [← h.2.1]
        exact framePreserves_refl σ
      | cons v vs => exact Option.noConfusion h
    · intro idx b count i σ σ' idx' h
      cases count with
      | zero =>
        rw [fillFieldsAtH] at h
        simp only [Option.some.injEq, Prod.mk.injEq] at h
        rw [← h.1]
        exact ⟨Nat.le_refl _, fun _ _ _ => rfl⟩
      | succ count => exact Option.noConfusion h
  | succ fuel ih =>
    obtain ⟨ihA, ihI, ihF⟩ := ih
    refine ⟨?_, ?_, ?_⟩
    · intro idx v σ v' σ' idx' h
      simp only [addMissingH.eq_def] at h
      split at h
      · simp only [Option.some.injEq, Prod.mk.injEq] at h
        rw [← h.2.1]
        exact framePreserves_refl σ
      · split at h
        · exact Option.noConfusion h
        · split at h
          · exact Option.noConfusion h
          · next items2 σ2 idx2 heq =>
            simp only [Option.some.injEq, Prod.mk.injEq] at h
            rw [← h.2.1]
            exact framePreserves_trans (ihI _ _ _ _ _ _ heq) (framePreserves_append σ2 _)
        · split at h
          · exact Option.noConfusion h
          · next σ2 idx2 heq =>
            simp only [Option.some.injEq, Prod.mk.injEq] at h
            rw [← h.2.1]
            have hfe := ihF _ _ _ _ _ _ _ heq
            have hlen := hfe.1
            rw [List.length_append] at hlen
            simp only [List.length_singleton] at hlen
            refine ⟨by omega, ?_⟩
            intro a ha
            have h1 : σ2[a]? = (σ ++ [HNode.obj (gapFillNodeEdit idx _).1])[a]? :=
              hfe.2 a (by rw [List.length_append]; simp; omega) (by omega)
            rw [h1, List.getElem?_append_left ha]
    · intro idx items σ items' σ' idx' h
      cases items with
      | nil =>
        rw [fillItemsH] at h
        simp only [Option.some.injEq, Prod.mk.injEq] at h
        rw [← h.2.1]
        exact framePreserves_refl σ
      | cons v vs =>
        rw [fillItemsH] at h
        split at h
        · exact Option.noConfusion h
        · next v2 σ2 idx2 heq =>
          split at h
          · exact Option.noConfusion h
          · next vs2 σ3 idx3 heq2 =>
            simp only [Option.some.injEq, Prod.mk.injEq] at h
            rw [← h.2.1]
            exact framePreserves_trans (ihA _ _ _ _ _ _ heq) (ihI _ _ _ _ _ _ heq2)
    · intro idx b count i σ σ' idx' h
      cases count with
      | zero =>
        rw [fillFieldsAtH] at h
        simp only [Option.some.injEq, Prod.mk.injEq] at h
        rw [← h.1]
        exact ⟨Nat.le_refl _, fun _ _ _ => rfl⟩
      | succ count =>
        rw [fillFieldsAtH] at h
        split at h
        · next fields heqb =>
          split at h
          · simp only [Option.some.injEq, Prod.mk.injEq] at h
            rw [← h.1]
            exact ⟨Nat.le_refl _, fun _ _ _ => rfl⟩
          · next k v heqi =>
            split at h
            · exact Option.noConfusion h
            · next v2 σ2 idx2 heq =>
              split at h
              · next fields2 heqb2 =>
                have hfr1 := ihA _ _ _ _ _ _ heq
                have hlen1 := hfr1.1
                have hfr2 := ihF _ _ _ _ _ _ _ h
                have hlen2 := hfr2.1
                rw [List.length_set] at hlen2
                refine ⟨by omega, ?_⟩
                intro a ha hab
                have hstep : σ'[a]? = (σ2.set b (HNode.obj (fields2.set i (k, v2))))[a]? :=
                  hfr2.2 a (by rw [List.length_set]; omega) hab
                rw [hstep, List.getElem?_set_ne (fun e => hab e.symm)]
                exact hfr1.2 a ha
              · exact Option.noConfusion h
        · exact Option.noConfusion h

/-- C10: `addMissingDisplayNames` never mutates the value it is given.  In
the heap model, where every object and array is a store node and the source's
shallow copies and in-place writes are explicit, a successful run only
appends fresh nodes and writes into them: every address of the original heap
still maps to exactly the node it held before the call, so the injected
displayName fields and trimmed values appear only in the returned tree and
the original argument is structurally unchanged. -/
theorem C10_no_mutation (fuel : Nat) (idx : DNIndex) (v : HVal) (σ : Store)
    (v' : HVal) (σ' : Store) (idx' : DNIndex)
    (h : addMissingH fuel idx v σ = some (v', σ', idx')) :
    σ.length ≤ σ'.length ∧ ∀ a, a < σ.length → σ'[a]? = σ[a]? :=
  (heap_frame fuel).1 idx v σ v' σ' idx' h

theorem C10_witness :
    (addMissingH 5 [] (.ref 0) [HNode.obj [("title", .prim (.str "Sun "))]]
      = some (.ref 1,
          [HNode.obj [("title", .prim (.str "Sun "))],
           HNode.obj [("title", .prim (.str "Sun ")),
                      ("displayName", .prim (.str "Sun"))]],
          [("Sun", ⟨"Sun", "Sun"⟩)])) ∧
    ([HNode.obj [("title", HVal.prim (.str "Sun "))]].length
        ≤ [HNode.obj [("title", HVal.prim (.str "Sun "))],
           HNode.obj [("title", HVal.prim (.str "Sun ")),
                      ("displayName", HVal.prim (.str "Sun"))]].length ∧
      ∀ a, a < [HNode.obj [("title", HVal.prim (.str "Sun "))]].length →
        [HNode.obj [("title", HVal.prim (.str "Sun "))],
         HNode.obj [("title", HVal.prim (.str "Sun ")),
                    ("displayName", HVal.prim (.str "Sun"))]][a]?
          = [HNode.obj [("title", HVal.prim (.str "Sun "))]][a]?) :=
  ⟨by decide,
   C10_no_mutation 5 [] (.ref 0) [HNode.obj [("title", .prim (.str "Sun "))]]
     (.ref 1)
     [HNode.obj [("title", .prim (.str "Sun "))],
      HNode.obj [("title", .prim (.str "Sun ")), ("displayName", .prim (.str "Sun"))]]
     [("Sun", ⟨"Sun", "Sun"⟩)] (by decide)⟩

/-- Cross-check of the extractor on a nested document with stray-cased keys:
the later occurrence of title `A` wins. -/
theorem extract_nested_example :
    extractDisplayNames []
      (.obj [("Title", .str "A"), ("DisplayName", .str "x"),
             ("kids", .arr [.obj [("title", .str "A"), ("displayname", .str "y")]])])
      = [("A", ⟨"A", "y"⟩)] := by decide

/-- Cross-check that the pure gap-filler agrees with the heap-level one on a
nested document (compare `addMissingH` on the corresponding heap: the copy of
the inner node is trimmed and the outer node gains `displayName: "A"`). -/
theorem pure_gap_fill_nested_example :
    addMissingDisplayNames []
      (.obj [("title", .str "A"),
             ("kids", .arr [.obj [("title", .str "B"), ("displayname", .str " x ")]])])
      = (.obj [("title", .str "A"),
               ("kids", .arr [.obj [("title", .str "B"), ("displayname", .str "x")]]),
               ("displayName", .str "A")],
         [("A", ⟨"A", "A"⟩)]) := by decide

/-- The same nested document in the heap model: the original nodes 0, 1 and 2
survive unchanged, the gap-filled copies are the fresh nodes 3, 4 and 5, and
the same index results as in the pure model. -/
theorem heap_gap_fill_nested_example :
    addMissingH 9 [] (.ref 0)
      [HNode.obj [("title", .prim (.str "A")), ("kids", .ref 1)],
       HNode.arr [.ref 2],
       HNode.obj [("title", .prim (.str "B")), ("displayname", .prim (.str " x "))]]
      = some (.ref 3,
         [HNode.obj [("title", .prim (.str "A")), ("kids", .ref 1)],
          HNode.arr [.ref 2],
          HNode.obj [("title", .prim (.str "B")), ("displayname", .prim (.str " x "))],
          HNode.obj [("title", .prim (.str "A")), ("kids", .ref 5),
                     ("displayName", .prim (.str "A"))],
          HNode.obj [("title", .prim (.str "B")), ("displayname", .prim (.str "x"))],
          HNode.arr [.ref 4]],
         [("A", ⟨"A", "A"⟩)]) := by decide
